import Mathlib

/-!
Verification of the bundle-size tracking scripts: a shallow embedding of
`scripts/generate-baseline.py` (filename normalization and baseline snapshot
generation) and `analyze_report.py` (report summarizing), plus a model of the
snapshot comparator/classifier described in the design document (the
comparator itself is not present in the repository sources).
-/

namespace BundleSize

/-! ## Character classes used by the normalization pattern

The hash-stripping regular expression is
`^(.*?)(?:-[A-Z0-9])?-[A-Za-z0-9_-]{6,}$` (Python `re`, no flags):
`.` does not match a newline, and `$` matches at the end of the string or
just before a trailing newline.
-/

/-- Characters matched by the class `[A-Za-z0-9_-]` (the hash-token class). -/
def isHashChar (c : Char) : Bool :=
  c.isAlphanum || c == '_' || c == '-'

/-- Characters matched by the class `[A-Z0-9]` (the optional marker). -/
def isMarker (c : Char) : Bool :=
  c.isUpper || c.isDigit

/-- A string entirely made of hash-token characters, of length at least 6:
the body matched by `[A-Za-z0-9_-]{6,}` when `$` sits at the end. -/
def hashBody (r : List Char) : Bool :=
  decide (6 ≤ r.length) && r.all isHashChar

/-- The suffix matched by `[A-Za-z0-9_-]{6,}$`: a hash body covering the rest
of the string, or covering all but one trailing newline (Python `$` also
matches just before a final newline). -/
def hashTail (r : List Char) : Bool :=
  hashBody r || (r.getLast? == some '\n' && hashBody r.dropLast)

/-- The suffix matched by `-[A-Za-z0-9_-]{6,}$`. -/
def dashHashTail (r : List Char) : Bool :=
  match r with
  | c :: t => c == '-' && hashTail t
  | [] => false

/-- The suffix matched by `(?:-[A-Z0-9])?-[A-Za-z0-9_-]{6,}$`: a dash-hash
tail, optionally preceded by a dash and a single marker character. -/
def tailMatch (r : List Char) : Bool :=
  dashHashTail r ||
    (match r with
     | c0 :: c1 :: t => c0 == '-' && isMarker c1 && dashHashTail t
     | _ => false)

/-- Lazy-group capture of `re.match` for the stripping pattern: the shortest
newline-free prefix whose remainder matches the tail pattern, or `none` when
no split matches (then `normalize` keeps the stem unchanged). -/
def stripHash : List Char → Option (List Char)
  | [] => none
  | c :: cs =>
    if tailMatch (c :: cs) then some []
    else if c = '\n' then none
    else (stripHash cs).map (fun p => c :: p)

/-! ## os.path.splitext -/

/-- Index of the last occurrence of a character, `-1` when absent
(Python `str.rfind`). -/
def rfindIdx (ch : Char) : List Char → Int
  | [] => -1
  | c :: cs =>
    let r := rfindIdx ch cs
    if 0 ≤ r then r + 1 else if c = ch then 0 else -1

/-- Embedding of `os.path.splitext` (POSIX: separator `/`, no alternative
separator): split at the last dot provided it comes after the last slash and
at least one character strictly between them is not a dot (so dotfiles such
as `.bashrc` have no extension). -/
def splitext (p : List Char) : List Char × List Char :=
  let si := rfindIdx '/' p
  let di := rfindIdx '.' p
  if si < di ∧ ((p.drop (si + 1).toNat).take (di - si - 1).toNat).any (fun c => c != '.') then
    (p.take di.toNat, p.drop di.toNat)
  else
    (p, [])

/-! ## The name normalizer (`normalize` in `scripts/generate-baseline.py`) -/

/-- List-level normalization: split off the extension, strip a trailing hash
token from the stem when the pattern matches, reattach the extension. -/
def normalizeL (name : List Char) : List Char :=
  let be := splitext name
  ((stripHash be.1).getD be.1) ++ be.2

/-- Embedding of `normalize`: remove a trailing content-hash suffix from a
build filename, keeping the extension. -/
def normalize (name : String) : String :=
  String.mk (normalizeL name.data)

/-! ## The baseline snapshot builder (`main` in `scripts/generate-baseline.py`) -/

/-- Python `str.endswith`. -/
def strEndsWith (s suffix : String) : Bool :=
  suffix.data.isSuffixOf s.data

/-- One entry of the scanned directory listing: its name, whether it is a
regular file (`os.path.isfile`), and its size in bytes (`os.path.getsize`). -/
structure DirEntry where
  name : String
  isFile : Bool
  size : Nat
deriving DecidableEq

/-- Python dict update `chunks[k] = chunks.get(k, 0) + v` on an
insertion-ordered association list. -/
def addChunk (m : List (String × Nat)) (k : String) (v : Nat) : List (String × Nat) :=
  match m with
  | [] => [(k, v)]
  | (k', v') :: rest =>
    if k' = k then (k', v' + v) :: rest else (k', v') :: addChunk rest k v

/-- The scan loop of `main`: keep entries with a tracked extension (`.js` or
`.css`) that are regular files, and accumulate each file's size under its
normalized name. -/
def buildChunks (entries : List DirEntry) : List (String × Nat) :=
  entries.foldl
    (fun m e =>
      if !(strEndsWith e.name ".js" || strEndsWith e.name ".css") then m
      else if !e.isFile then m
      else addChunk m (normalize e.name) e.size)
    []

/-- The baseline document written by `main`. -/
structure Baseline where
  generatedAt : String
  chunks : List (String × Nat)
  total : Nat
deriving DecidableEq

/-- The baseline value built by `main`: the scanned chunks together with
`total` computed as `sum(chunks.values())`. -/
def makeBaseline (now : String) (entries : List DirEntry) : Baseline :=
  let chunks := buildChunks entries
  { generatedAt := now, chunks := chunks, total := (chunks.map Prod.snd).sum }

/-- Embedding of `main` in `scripts/generate-baseline.py`, as a function of
whether the assets directory exists and of its listing: the baseline file
written (if any) and the process exit code (`exit(main())`). When the
directory is missing the function returns 1 before any write. -/
def genBaselineMain (dirExists : Bool) (entries : List DirEntry) (now : String) :
    Option Baseline × Nat :=
  if !dirExists then (none, 1)
  else (some (makeBaseline now entries), 0)

/-! ## The report summarizer (`analyze_report.py`) -/

/-- A chunk record of the report JSON; every field is optional because the
script reads them with `dict.get` defaults. -/
structure ChunkJson where
  status : Option String
  baselineBytes : Option Int
  currentBytes : Option Int
  deltaPct : Option Rat
deriving DecidableEq

/-- The `baseline` / `current` sub-objects of the report. -/
structure Totals where
  totalBytes : Option Int
deriving DecidableEq

/-- The report JSON document. -/
structure ReportJson where
  status : Option String
  baseline : Option Totals
  current : Option Totals
  chunks : List (String × ChunkJson)
deriving DecidableEq

/-- Python `report.get('baseline', {}).get('totalBytes', 0)`. -/
def totalsBytes (t : Option Totals) : Int :=
  match t with
  | some t => t.totalBytes.getD 0
  | none => 0

/-- The guarded overall percentage:
`total_delta / total_baseline if total_baseline > 0 else 0`. -/
def totalDeltaPct (totalBaseline totalCurrent : Int) : Rat :=
  if 0 < totalBaseline then
    ((totalCurrent - totalBaseline : Int) : Rat) / (totalBaseline : Rat)
  else 0

/-- Python `chunk.get('status') in ['fail', 'warn']`. -/
def statusFailWarn (c : ChunkJson) : Bool :=
  c.status == some "fail" || c.status == some "warn"

/-- The sort key `abs(currentBytes - baselineBytes)` (with `get` defaults). -/
def absDelta (c : ChunkJson) : Nat :=
  ((c.currentBytes.getD 0) - (c.baselineBytes.getD 0)).natAbs

/-- The filter loop: chunks whose status is `fail` or `warn`. -/
def failingChunks (chunks : List (String × ChunkJson)) : List (String × ChunkJson) :=
  chunks.filter (fun nc => statusFailWarn nc.2)

/-- Comparison used by `failing_chunks.sort(key=..., reverse=True)`:
descending absolute byte delta (stable for ties). -/
def byAbsDeltaDesc (a b : String × ChunkJson) : Bool :=
  decide (absDelta b.2 ≤ absDelta a.2)

/-- The chunk lines the script renders: filtered to warn/fail, sorted by
descending absolute delta, truncated to the first 50. -/
def renderedChunks (chunks : List (String × ChunkJson)) : List (String × ChunkJson) :=
  ((failingChunks chunks).mergeSort byAbsDeltaDesc).take 50

/-- One line printed by `analyze_report.py`, abstracting the decimal
formatting but keeping every printed value. -/
inductive OutLine where
  | errorReading (msg : String)
  | overallStatus (s : String)
  | totalBaseline (n : Int)
  | totalCurrent (n : Int)
  | totalDelta (delta : Int) (pct : Rat)
  | blank
  | header
  | chunkLine (name : String) (status : String)
      (baselineBytes currentBytes delta : Int) (deltaPct : Rat)
deriving DecidableEq

/-- Embedding of the whole `analyze_report.py` script: its input is the
outcome of opening and JSON-parsing the fixed report path, its output is the
list of printed lines and the process exit code. The `try` body prints the
summary; the `except` arm prints a single `Error reading report: ...` line.
Neither arm calls `sys.exit`, so the interpreter exits 0 in both cases. -/
def analyzeReport (input : Except String ReportJson) : List OutLine × Nat :=
  match input with
  | .error e => ([OutLine.errorReading e], 0)
  | .ok report =>
    let tb := totalsBytes report.baseline
    let tc := totalsBytes report.current
    let chunkLines := (renderedChunks report.chunks).map (fun nc =>
      OutLine.chunkLine nc.1 (nc.2.status.getD "")
        (nc.2.baselineBytes.getD 0) (nc.2.currentBytes.getD 0)
        ((nc.2.currentBytes.getD 0) - (nc.2.baselineBytes.getD 0))
        (nc.2.deltaPct.getD 0))
    ([OutLine.overallStatus (report.status.getD "unknown"),
      OutLine.totalBaseline tb,
      OutLine.totalCurrent tc,
      OutLine.totalDelta (tc - tb) (totalDeltaPct tb tc),
      OutLine.blank,
      OutLine.header] ++ chunkLines, 0)

/-! ## The snapshot comparator/classifier (not present in the sources) -/

/-- Classification severity. -/
inductive Status where
  | pass
  | warn
  | fail
deriving DecidableEq

/-- Modelled from the spec: the threshold configuration of the snapshot
comparator/classifier (design document §4.3 and §9), which is absent from the
repository sources — each of the warn and fail thresholds is expressible as a
percentage delta and/or an absolute byte delta. -/
structure Thresholds where
  warnPct : Option Rat
  failPct : Option Rat
  warnBytes : Option Int
  failBytes : Option Int
deriving DecidableEq

/-- The per-chunk result of the comparator. -/
structure ChunkResult where
  status : Status
  baselineBytes : Int
  currentBytes : Int
  deltaPct : Rat
deriving DecidableEq

/-- Modelled from the spec: a threshold breach of the comparator/classifier
(absent from the repository sources) — either the configured percentage or
the configured absolute byte delta being exceeded is sufficient. -/
def breaches (pctThr : Option Rat) (bytesThr : Option Int) (delta : Int) (deltaPct : Rat) :
    Bool :=
  (match pctThr with
   | some t => decide (t < deltaPct)
   | none => false) ||
  (match bytesThr with
   | some t => decide (t < delta)
   | none => false)

/-- Modelled from the spec: the per-chunk classifier of the snapshot
comparator (design document §4.3), which is absent from the repository
sources. It computes `delta = currentBytes - baselineBytes` and
`deltaPct = delta / baselineBytes` (with the new-chunk sentinel `+100%` when
`baselineBytes = 0`), then classifies `fail` if the fail threshold is
breached, else `warn` if the warn threshold is breached, else `pass`. -/
def classifyChunk (cfg : Thresholds) (baselineBytes currentBytes : Int) : ChunkResult :=
  let delta := currentBytes - baselineBytes
  let deltaPct : Rat :=
    if baselineBytes = 0 then 1 else ((delta : Int) : Rat) / ((baselineBytes : Int) : Rat)
  let st :=
    if breaches cfg.failPct cfg.failBytes delta deltaPct then Status.fail
    else if breaches cfg.warnPct cfg.warnBytes delta deltaPct then Status.warn
    else Status.pass
  ⟨st, baselineBytes, currentBytes, deltaPct⟩

/-- Helper for reasoning about matched tails: a run of hash-class characters
optionally followed by one final newline. -/
def ClassNl (s : List Char) : Prop :=
  s.all isHashChar = true ∨ ∃ s0, s = s0 ++ ['\n'] ∧ s0.all isHashChar = true

/-! ## Theorems -/

theorem splitext_append (l : List Char) : (splitext l).1 ++ (splitext l).2 = l := by
  simp only [splitext]
  split
  · simp
  · simp

theorem stripHash_some : ∀ (b p : List Char), stripHash b = some p →
    ∃ s, b = p ++ s ∧ tailMatch s = true ∧ '\n' ∉ p := by
  intro b
  induction b with
  | nil => intro p h; simp [stripHash] at h
  | cons c cs ih =>
    intro p h
    simp only [stripHash] at h
    split at h
    · rename_i htm
      injection h with h'
      exact ⟨c :: cs, by rw [← h']; rfl, htm, by rw [← h']; simp⟩
    · split at h
      · exact absurd h (by simp)
      · rename_i hnl
        rw [Option.map_eq_some'] at h
        obtain ⟨p2, hsh, rfl⟩ := h
        obtain ⟨s, rfl, hs, hnp⟩ := ih p2 hsh
        refine ⟨s, rfl, hs, ?_⟩
        simp only [List.mem_cons, not_or]
        exact ⟨fun hh => hnl hh.symm, hnp⟩

theorem stripHash_minimal : ∀ (b p : List Char), stripHash b = some p →
    ∀ q r, b = q ++ r → q.length < p.length → tailMatch r = false := by
  intro b
  induction b with
  | nil => intro p h; simp [stripHash] at h
  | cons c cs ih =>
    intro p h q r hqr hlen
    simp only [stripHash] at h
    split at h
    · rename_i htm
      injection h with h'
      rw [← h'] at hlen
      simp at hlen
    · split at h
      · exact absurd h (by simp)
      · rename_i htm hnl
        rw [Option.map_eq_some'] at h
        obtain ⟨p2, hsh, rfl⟩ := h
        cases q with
        | nil =>
          simp only [List.nil_append] at hqr
          rw [← hqr]
          exact Bool.eq_false_iff.mpr htm
        | cons q0 qs =>
          have hc : c = q0 := by injection hqr
          have hcs : cs = qs ++ r := by injection hqr
          have hlen' : qs.length < p2.length := by
            simp only [List.length_cons] at hlen
            omega
          exact ih p2 hsh qs r hcs hlen'

theorem isHashChar_of_isMarker (c : Char) (h : isMarker c = true) : isHashChar c = true := by
  simp only [isMarker, Bool.or_eq_true] at h
  simp only [isHashChar, Char.isAlphanum, Char.isAlpha, Bool.or_eq_true]
  rcases h with h | h
  · exact Or.inl (Or.inl (Or.inl (Or.inl h)))
  · exact Or.inl (Or.inl (Or.inr h))

theorem classNl_cons (c : Char) (s : List Char) (hc : isHashChar c = true)
    (h : ClassNl s) : ClassNl (c :: s) := by
  rcases h with h | ⟨s0, rfl, h⟩
  · exact Or.inl (by simp [List.all_cons, hc, h])
  · exact Or.inr ⟨c :: s0, by simp, by simp [List.all_cons, hc, h]⟩

theorem hashTail_classNl (r : List Char) (h : hashTail r = true) : ClassNl r := by
  simp only [hashTail, Bool.or_eq_true, Bool.and_eq_true, beq_iff_eq] at h
  rcases h with h | ⟨hlast, hbody⟩
  · simp only [hashBody, Bool.and_eq_true] at h
    exact Or.inl h.2
  · refine Or.inr ⟨r.dropLast, ?_, ?_⟩
    · exact (List.dropLast_append_getLast? '\n' hlast).symm
    · simp only [hashBody, Bool.and_eq_true] at hbody
      exact hbody.2

theorem hashBody_of_no_newline (r : List Char) (h : hashTail r = true)
    (hnl : '\n' ∉ r) : hashBody r = true := by
  simp only [hashTail, Bool.or_eq_true, Bool.and_eq_true, beq_iff_eq] at h
  rcases h with h | ⟨hlast, _⟩
  · exact h
  · exact absurd (List.mem_of_getLast?_eq_some hlast) hnl

theorem hashTail_append (t s : List Char) (ht : hashBody t = true)
    (hs : ClassNl s) : hashTail (t ++ s) = true := by
  simp only [hashBody, Bool.and_eq_true, decide_eq_true_eq] at ht
  rcases hs with hs | ⟨s0, rfl, hs0⟩
  · have : hashBody (t ++ s) = true := by
      simp only [hashBody, Bool.and_eq_true, decide_eq_true_eq, List.all_append,
        List.length_append]
      exact ⟨by omega, ht.2, hs⟩
    simp [hashTail, this]
  · have hb : hashBody (t ++ s0) = true := by
      simp only [hashBody, Bool.and_eq_true, decide_eq_true_eq, List.all_append,
        List.length_append]
      exact ⟨by omega, ht.2, hs0⟩
    have hl : (t ++ (s0 ++ ['\n'])).getLast? = some '\n' := by
      rw [← List.append_assoc]
      exact List.getLast?_concat _
    have hdl : (t ++ (s0 ++ ['\n'])).dropLast = t ++ s0 := by
      rw [← List.append_assoc]
      exact List.dropLast_concat
    simp [hashTail, hl, hdl, hb]

theorem dashHashTail_inv (r : List Char) (h : dashHashTail r = true) :
    ∃ t, r = '-' :: t ∧ hashTail t = true := by
  cases r with
  | nil => simp [dashHashTail] at h
  | cons c t =>
    simp only [dashHashTail, Bool.and_eq_true, beq_iff_eq] at h
    exact ⟨t, by rw [h.1], h.2⟩

theorem tailMatch_inv (r : List Char) (h : tailMatch r = true) :
    dashHashTail r = true ∨
      ∃ c t, r = '-' :: c :: t ∧ isMarker c = true ∧ dashHashTail t = true := by
  simp only [tailMatch, Bool.or_eq_true] at h
  rcases h with h | h
  · exact Or.inl h
  · right
    cases r with
    | nil => simp at h
    | cons c0 r' =>
      cases r' with
      | nil => simp at h
      | cons c1 t =>
        simp only [Bool.and_eq_true, beq_iff_eq] at h
        exact ⟨c1, t, by rw [h.1.1], h.1.2, h.2⟩

theorem tailMatch_classNl (s : List Char) (h : tailMatch s = true) : ClassNl s := by
  rcases tailMatch_inv s h with hd | ⟨c, t, rfl, hm, hd⟩
  · obtain ⟨t, rfl, ht⟩ := dashHashTail_inv _ hd
    exact classNl_cons _ _ (by decide) (hashTail_classNl t ht)
  · obtain ⟨u, rfl, hu⟩ := dashHashTail_inv _ hd
    exact classNl_cons _ _ (by decide)
      (classNl_cons _ _ (isHashChar_of_isMarker c hm)
        (classNl_cons _ _ (by decide) (hashTail_classNl u hu)))

theorem tailMatch_append (s' s : List Char) (hnl : '\n' ∉ s')
    (h1 : tailMatch s' = true) (h2 : tailMatch s = true) :
    tailMatch (s' ++ s) = true := by
  have hcl : ClassNl s := tailMatch_classNl s h2
  rcases tailMatch_inv s' h1 with hd | ⟨c, t0, rfl, hm, hd⟩
  · obtain ⟨t, rfl, ht⟩ := dashHashTail_inv _ hd
    have hnlt : '\n' ∉ t := fun hx => hnl (List.mem_cons_of_mem _ hx)
    have hb : hashBody t = true := hashBody_of_no_newline t ht hnlt
    have hdh : dashHashTail ('-' :: (t ++ s)) = true := by
      simp [dashHashTail, hashTail_append t s hb hcl]
    simp [tailMatch, List.cons_append, hdh]
  · obtain ⟨u, rfl, hu⟩ := dashHashTail_inv _ hd
    have hnlu : '\n' ∉ u := fun hx => hnl (by simp [hx])
    have hb : hashBody u = true := hashBody_of_no_newline u hu hnlu
    have hdh : dashHashTail ('-' :: (u ++ s)) = true := by
      simp [dashHashTail, hashTail_append u s hb hcl]
    simp only [List.cons_append, tailMatch, Bool.or_eq_true]
    right
    simp [hm, hdh]

theorem stripHash_stripHash (b p : List Char) (h : stripHash b = some p) :
    stripHash p = none := by
  cases hp : stripHash p with
  | none => rfl
  | some p' =>
    exfalso
    obtain ⟨s, hb, hs, hnlp⟩ := stripHash_some b p h
    obtain ⟨s', hp', hs', _⟩ := stripHash_some p p' hp
    have hnls' : '\n' ∉ s' := fun hx => hnlp (hp' ▸ List.mem_append_right p' hx)
    have htm : tailMatch (s' ++ s) = true := tailMatch_append s' s hnls' hs' hs
    have hne : s' ≠ [] := by
      intro hh
      rw [hh] at hs'
      exact absurd hs' (by simp [tailMatch, dashHashTail])
    have hlt : p'.length < p.length := by
      rw [hp', List.length_append]
      have := List.length_pos.mpr hne
      omega
    have hfalse := stripHash_minimal b p h p' (s' ++ s)
      (by rw [hb, hp', List.append_assoc]) hlt
    rw [htm] at hfalse
    exact Bool.noConfusion hfalse

theorem normalizeL_idem (l : List Char)
    (h : (splitext (normalizeL l)).2 = (splitext l).2) :
    normalizeL (normalizeL l) = normalizeL l := by
  cases hsh : stripHash (splitext l).1 with
  | none =>
    have hl : normalizeL l = l := by
      simp only [normalizeL]
      rw [hsh]
      simpa using splitext_append l
    rw [hl]
    exact hl
  | some p =>
    have hval : normalizeL l = p ++ (splitext l).2 := by
      simp only [normalizeL]
      rw [hsh]
      rfl
    rw [hval] at h
    have happ := splitext_append (p ++ (splitext l).2)
    rw [h] at happ
    have hb2 : (splitext (p ++ (splitext l).2)).1 = p := List.append_cancel_right happ
    have hfix : normalizeL (p ++ (splitext l).2) = p ++ (splitext l).2 := by
      simp only [normalizeL]
      rw [hb2, h, stripHash_stripHash _ p hsh]
      rfl
    rw [hval, hfix]

/-- C3 (counterexample): the normalizer is not idempotent on every filename —
stripping can turn the stem into dots only, after which `splitext` no longer
separates the extension and a second application strips again. -/
theorem normalize_not_idempotent :
    normalize (normalize ".-aaaaaa.x-123456") ≠ normalize ".-aaaaaa.x-123456" := by
  decide

/-- C3 (amended): the normalizer is idempotent on every filename whose
normalization preserves the stem/extension split — whenever `splitext` gives
`normalize x` the same extension it gives `x`, a second application returns
`normalize x` unchanged (the stripped stem can never match the pattern again). -/
theorem normalize_idem (x : String)
    (h : (splitext (normalize x).data).2 = (splitext x.data).2) :
    normalize (normalize x) = normalize x := by
  have h' : (splitext (normalizeL x.data)).2 = (splitext x.data).2 := h
  exact congrArg String.mk (normalizeL_idem x.data h')

theorem normalize_idem_witness :
    (splitext (normalize "main-0f9a8b7c6d.js").data).2 =
        (splitext "main-0f9a8b7c6d.js".data).2 ∧
      normalize (normalize "main-0f9a8b7c6d.js") = normalize "main-0f9a8b7c6d.js" :=
  ⟨by decide, normalize_idem "main-0f9a8b7c6d.js" (by decide)⟩

/-- C10: the normalizer only ever removes a trailing portion of the stem — its
output is a prefix of the stem (as split by `splitext`) followed by the input's
extension, and is never longer than the input. -/
theorem normalize_stem_take (name : String) :
    ∃ k ≤ ((splitext name.data).1).length,
      (normalize name).data = ((splitext name.data).1).take k ++ (splitext name.data).2 ∧
        (normalize name).data.length ≤ name.data.length := by
  have hlen : ((splitext name.data).1).length + ((splitext name.data).2).length =
      name.data.length := by
    have := congrArg List.length (splitext_append name.data)
    simpa using this
  cases hsh : stripHash (splitext name.data).1 with
  | none =>
    refine ⟨((splitext name.data).1).length, le_refl _, ?_, ?_⟩
    · show normalizeL name.data = _
      simp only [normalizeL]
      rw [hsh]
      simp [List.take_length]
    · show (normalizeL name.data).length ≤ _
      simp only [normalizeL]
      rw [hsh]
      simp only [Option.getD_none, List.length_append]
      omega
  | some p =>
    obtain ⟨s, hb, _, _⟩ := stripHash_some _ p hsh
    refine ⟨p.length, ?_, ?_, ?_⟩
    · rw [hb]
      simp
    · show normalizeL name.data = _
      simp only [normalizeL]
      rw [hsh]
      simp only [Option.getD_some]
      congr 1
      rw [hb]
      exact (List.take_left p s).symm
    · show (normalizeL name.data).length ≤ _
      simp only [normalizeL]
      rw [hsh]
      simp only [Option.getD_some, List.length_append]
      have : p.length ≤ ((splitext name.data).1).length := by
        rw [hb]
        simp
      omega

/-- C1: with baseline 1000 bytes, current 1300 bytes, warn threshold 10% and
fail threshold 25%, the chunk result has status `fail` and `deltaPct = 0.30`. -/
theorem classifyChunk_thirty_pct_fails :
    classifyChunk ⟨some (1/10), some (1/4), none, none⟩ 1000 1300 =
      ⟨Status.fail, 1000, 1300, 3/10⟩ := by
  simp only [classifyChunk, breaches]
  norm_num

/-- C5: the `total` field of every generated baseline equals the sum of the
byte counts of its `chunks` mapping. -/
theorem makeBaseline_total_eq_sum (now : String) (entries : List DirEntry) :
    (makeBaseline now entries).total =
      ((makeBaseline now entries).chunks.map Prod.snd).sum :=
  rfl

/-- C6: running the baseline generator against a missing input directory
exits with code 1 and writes nothing. -/
theorem genBaselineMain_missing_dir (entries : List DirEntry) (now : String) :
    genBaselineMain false entries now = (none, 1) :=
  rfl

/-- C7: normalization examples — a hashed name loses its hash, a name without
a hash suffix is unchanged, and a name with a marker segment loses both the
marker and the hash. -/
theorem normalize_examples :
    normalize "app-a1b2c3d4e5.js" = "app.js" ∧
    normalize "vendor.js" = "vendor.js" ∧
    normalize "chunk-A-f9e8d7c6b5a4.css" = "chunk.css" := by
  decide

/-- C4: two regular files that normalize to the same identity have their
sizes summed into a single chunk entry. -/
theorem buildChunks_sums_same_identity :
    makeBaseline "2026-01-01T00:00:00Z"
        [⟨"foo-111111.js", true, 100⟩, ⟨"foo-222222.js", true, 50⟩] =
      ⟨"2026-01-01T00:00:00Z", [("foo.js", 150)], 150⟩ := by
  decide

/-- C8: when the report's baseline total is 0, the overall percentage is 0
rather than a division error (the guard takes the `else 0` branch). -/
theorem totalDeltaPct_zero_baseline (totalCurrent : Int) :
    totalDeltaPct 0 totalCurrent = 0 :=
  rfl

/-- C2 (amended): whenever reading or parsing the report fails, the script
prints exactly the one diagnostic line and the process exits with code 0. -/
theorem analyzeReport_error_single_line (msg : String) :
    analyzeReport (Except.error msg) = ([OutLine.errorReading msg], 0) :=
  rfl

/-- C2 (counterexample): on a failed read the script prints a single
diagnostic line but the exit code is 0, not non-zero as claimed. -/
theorem analyzeReport_error_exit_zero :
    (analyzeReport (Except.error "No such file or directory")).1.length = 1 ∧
    ¬((analyzeReport (Except.error "No such file or directory")).2 ≠ 0) := by
  decide

theorem byAbsDeltaDesc_trans (a b c : String × ChunkJson)
    (hab : byAbsDeltaDesc a b = true) (hbc : byAbsDeltaDesc b c = true) :
    byAbsDeltaDesc a c = true := by
  simp only [byAbsDeltaDesc, decide_eq_true_eq] at *
  omega

theorem byAbsDeltaDesc_total (a b : String × ChunkJson) :
    (byAbsDeltaDesc a b || byAbsDeltaDesc b a) = true := by
  simp only [byAbsDeltaDesc, Bool.or_eq_true, decide_eq_true_eq]
  omega

/-- C9: the summarizer renders only chunks of the report whose status is
`fail` or `warn`, in order of descending absolute byte delta, at most 50 of
them; it omits such a chunk only when 50 are already rendered, and every
omitted warn/fail chunk has an absolute byte delta no larger than that of
every rendered chunk — so the rendered chunks are the top 50. -/
theorem renderedChunks_spec (chunks : List (String × ChunkJson)) :
    (renderedChunks chunks).length ≤ 50 ∧
    (∀ nc ∈ renderedChunks chunks,
        nc ∈ chunks ∧ (nc.2.status = some "fail" ∨ nc.2.status = some "warn")) ∧
    (renderedChunks chunks).Pairwise (fun a b => absDelta b.2 ≤ absDelta a.2) ∧
    (∀ nc ∈ chunks, (nc.2.status = some "fail" ∨ nc.2.status = some "warn") →
        nc ∈ renderedChunks chunks ∨ (renderedChunks chunks).length = 50) ∧
    (∀ o ∈ chunks, (o.2.status = some "fail" ∨ o.2.status = some "warn") →
        o ∉ renderedChunks chunks →
        ∀ r ∈ renderedChunks chunks, absDelta o.2 ≤ absDelta r.2) := by
  have hs : ((failingChunks chunks).mergeSort byAbsDeltaDesc).Pairwise
      (fun a b => byAbsDeltaDesc a b = true) :=
    List.sorted_mergeSort byAbsDeltaDesc_trans byAbsDeltaDesc_total _
  refine ⟨?_, ?_, ?_, ?_, ?_⟩
  · simp only [renderedChunks]
    exact List.length_take_le _ _
  · intro nc hnc
    have h1 : nc ∈ (failingChunks chunks).mergeSort byAbsDeltaDesc :=
      List.mem_of_mem_take hnc
    have h2 : nc ∈ failingChunks chunks := List.mem_mergeSort.mp h1
    have h3 := List.mem_filter.mp h2
    refine ⟨h3.1, ?_⟩
    have h4 := h3.2
    simpa [statusFailWarn, Bool.or_eq_true, beq_iff_eq] using h4
  · have ht : (renderedChunks chunks).Pairwise (fun a b => byAbsDeltaDesc a b = true) :=
      hs.sublist (List.take_sublist _ _)
    exact ht.imp (fun h => by simpa [byAbsDeltaDesc, decide_eq_true_eq] using h)
  · intro nc hnc hst
    have hf : nc ∈ failingChunks chunks := by
      refine List.mem_filter.mpr ⟨hnc, ?_⟩
      simpa [statusFailWarn, Bool.or_eq_true, beq_iff_eq] using hst
    have hm : nc ∈ (failingChunks chunks).mergeSort byAbsDeltaDesc :=
      List.mem_mergeSort.mpr hf
    by_cases hlen : ((failingChunks chunks).mergeSort byAbsDeltaDesc).length ≤ 50
    · left
      simp only [renderedChunks]
      rw [List.take_of_length_le hlen]
      exact hm
    · right
      simp only [renderedChunks, List.length_take]
      omega
  · intro o ho hst hnot r hr
    have hof : o ∈ failingChunks chunks := by
      refine List.mem_filter.mpr ⟨ho, ?_⟩
      simpa [statusFailWarn, Bool.or_eq_true, beq_iff_eq] using hst
    have hom : o ∈ (failingChunks chunks).mergeSort byAbsDeltaDesc :=
      List.mem_mergeSort.mpr hof
    have hsplit : ((failingChunks chunks).mergeSort byAbsDeltaDesc).take 50 ++
        ((failingChunks chunks).mergeSort byAbsDeltaDesc).drop 50 =
        (failingChunks chunks).mergeSort byAbsDeltaDesc :=
      List.take_append_drop 50 _
    rw [← hsplit] at hs hom
    have hodrop : o ∈ ((failingChunks chunks).mergeSort byAbsDeltaDesc).drop 50 := by
      rcases List.mem_append.mp hom with h | h
      · exact absurd h hnot
      · exact h
    have hcross := (List.pairwise_append.mp hs).2.2
    have := hcross r hr o hodrop
    simpa [byAbsDeltaDesc, decide_eq_true_eq] using this

theorem renderedChunks_spec_witness :
    ("app.js", (⟨some "fail", some 1000, some 1300, some (3/10)⟩ : ChunkJson)) ∈
        renderedChunks
          [("app.js", (⟨some "fail", some 1000, some 1300, some (3/10)⟩ : ChunkJson))] ∨
      (renderedChunks
          [("app.js", (⟨some "fail", some 1000, some 1300, some (3/10)⟩ : ChunkJson))]).length =
        50 :=
  (renderedChunks_spec _).2.2.2.1 _ (List.mem_cons_self _ _) (Or.inl rfl)

end BundleSize
